import Mathlib

/-!
# Verification of the deepseek-ocr post-processing pipeline

Shallow embedding of the post-processing core of `converter.py` (and the
assembly loop shared with `api.py`):

* `extract_and_embed_images` — regex-driven replacement of
  `<|ref|>…<|/ref|><|det|>[[x1,y1,x2,y2]]<|/det|>` pairs by inline markdown
  images cropped from the page image (function `extractAndEmbedL` below);
* `clean_text` — tag stripping, LaTeX-delimiter rewriting and blank-line
  collapsing (function `cleanTextL`);
* the document-assembly loop of `main` (function `assembleL`).

Strings are modelled as `List Char`.  Python's `re.sub` is modelled by a
fueled leftmost scanner `reSubF` parameterised by a matcher; each regex of
the source is translated into one matcher implementing Python's
lazy/greedy backtracking semantics for that concrete pattern.  Machine
reals are idealised: `int(x / 1000 * d)` is modelled as exact-rational
truncation `Int.tdiv (x * d) 1000` (all concrete inputs used in theorems
below are exact in IEEE double precision, so the idealisation is faithful
on them).  The raster content of images is opaque: an image is its
`(width, height)` pair, and PNG/base64 serialisation of a crop is an
arbitrary parameter `enc`.  Behaviour of the PIL library used by the
source is modelled from its documented semantics: `Image.crop` raises when
`right < left` or `lower < upper` (and pads, without error, regions lying
outside the image), and saving a zero-sized image as PNG raises.  Each
exception caught by the source's `except` block writes one warning to
stderr; warnings are modelled as a count threaded through the scanner.
-/

namespace DeepseekOCR

/-- ASCII fragment of the whitespace class used by Python's `str.strip`
and the regex class `\s`. -/
def pyIsSpace (c : Char) : Bool :=
  c == ' ' || c == '\t' || c == '\n' || c == '\r' || c == '\x0b' || c == '\x0c'

/-- Python `str.strip()`: remove leading and trailing whitespace. -/
def pyStrip (s : List Char) : List Char :=
  ((s.dropWhile pyIsSpace).reverse.dropWhile pyIsSpace).reverse

/-- Match a literal at the head of the input; return the remainder. -/
def dropLit : List Char → List Char → Option (List Char)
  | [], s => some s
  | _ :: _, [] => none
  | p :: ps, c :: cs => if p = c then dropLit ps cs else none

/-- Lazy scan implementing a non-greedy group `(.*?)` followed by a closing
pattern `K`: at each position first try to close, else consume one
character into the group.  Returns the group, the close's payload and the
remaining input. -/
def scanUntil (K : List Char → Option (β × List Char)) : List Char → Option (List Char × β × List Char)
  | [] =>
    match K [] with
    | some (b, r) => some ([], b, r)
    | none => none
  | c :: cs =>
    match K (c :: cs) with
    | some (b, r) => some ([], b, r)
    | none =>
      match scanUntil K cs with
      | some (g, b, r) => some (c :: g, b, r)
      | none => none

/-- Closing pattern `<\|/ref\|>` of the stripper's reference-block regex. -/
def kRefClose (s : List Char) : Option (Unit × List Char) :=
  (dropLit "<|/ref|>".data s).map fun r => ((), r)

/-- Closing pattern `\]\]\s*<\|/det\|>` shared by the detection-block
regex and the embedder's pattern. -/
def kDetClose (s : List Char) : Option (Unit × List Char) :=
  (dropLit "]]".data s).bind fun r1 =>
  (dropLit "<|/det|>".data (r1.dropWhile pyIsSpace)).map fun r2 => ((), r2)

/-- Closing pattern of the embedder's first group:
`<\|/ref\|>\s*<\|det\|>\s*\[\[` followed by the lazy second group and
`kDetClose`.  Its payload is the second group's capture. -/
def kPairTail (s : List Char) : Option (List Char × List Char) :=
  (dropLit "<|/ref|>".data s).bind fun r1 =>
  (dropLit "<|det|>".data (r1.dropWhile pyIsSpace)).bind fun r2 =>
  (dropLit "[[".data (r2.dropWhile pyIsSpace)).bind fun r3 =>
  (scanUntil kDetClose r3).map fun (g2, _, rest) => (g2, rest)

/-- Closing pattern `\\\)` of the inline-math regex. -/
def kParenClose (s : List Char) : Option (Unit × List Char) :=
  (dropLit "\\)".data s).map fun r => ((), r)

/-- Closing pattern `\\\]` of the block-math regex. -/
def kBrackClose (s : List Char) : Option (Unit × List Char) :=
  (dropLit "\\]".data s).map fun r => ((), r)

/-- A source image as opened by `PIL.Image.open`: only its dimensions are
observable by the modelled code. -/
structure PILImage where
  width : Nat
  height : Nat
deriving DecidableEq

/-- Lines 62–65 of `converter.py`: `int(x / 1000 * dim)` — DeepSeek-OCR
coordinates are normalised to `[0, 1000]` and scaled to the actual
dimension.  Python's `int()` truncates toward zero, which on the exact
rational `x * dim / 1000` is `Int.tdiv`. -/
def codePixel (n : Int) (d : Nat) : Int := Int.tdiv (n * d) 1000

/-- The box `(x1, y1, x2, y2)` the source passes to `img.crop` after
scaling each normalised coordinate independently (x against the width,
y against the height).  No clamping is performed by the source. -/
def resolvedBox (x1 y1 x2 y2 : Int) (w h : Nat) : Int × Int × Int × Int :=
  (codePixel x1 w, codePixel y1 h, codePixel x2 w, codePixel y2 h)

/-- Python `str.split(',')`: split at every comma, keeping empty pieces. -/
def pySplitComma : List Char → List (List Char)
  | [] => [[]]
  | c :: cs =>
    if c = ',' then [] :: pySplitComma cs
    else
      match pySplitComma cs with
      | [] => [[c]]
      | p :: ps => (c :: p) :: ps

/-- Digit tail of Python's `int()` literal grammar: further digits, with
single underscores allowed between digits. -/
def pyDigitsCore : Nat → List Char → Option Nat
  | acc, [] => some acc
  | acc, c :: cs =>
    if c.isDigit then pyDigitsCore (10 * acc + (c.toNat - 48)) cs
    else if c = '_' then
      match cs with
      | [] => none
      | d :: ds =>
        if d.isDigit then pyDigitsCore (10 * acc + (d.toNat - 48)) ds else none
    else none

/-- Nonempty digit sequence of Python's `int()`. -/
def pyNat : List Char → Option Nat
  | [] => none
  | c :: cs => if c.isDigit then pyDigitsCore (c.toNat - 48) cs else none

/-- Python `int(s)` on an already-stripped string: optional sign followed
by a nonempty digit sequence; any other input raises `ValueError`. -/
def pyInt (s : List Char) : Option Int :=
  match s with
  | '+' :: rest => (pyNat rest).map Int.ofNat
  | '-' :: rest => (pyNat rest).map fun n => -(n : Int)
  | _ => (pyNat s).map Int.ofNat

/-- Line 50 of `converter.py`:
`[int(c.strip()) for c in coords_str.split(',')]`; `none` models the
comprehension raising `ValueError`. -/
def pyParseCoords (s : List Char) : Option (List Int) :=
  (pySplitComma s).mapM fun piece => pyInt (pyStrip piece)

/-- The markdown image markup emitted on a successful crop:
`![image](data:image/png;base64,` + payload + `)`. -/
def mdImage (payload : List Char) : List Char :=
  "![image](data:image/png;base64,".data ++ payload ++ ")".data

/-- Lines 41–76 of `converter.py`, the `replace_match` closure.  `g0` is
the whole matched span, `g1` the reference group, `g2` the coordinate
group; `enc` stands for base64-PNG serialisation of the crop (its output
is opaque).  The second component counts warnings written to stderr by
the `except` handler.  Failure modelling from PIL's documented behaviour:
`img.crop` raises when `x2 < x1` or `y2 < y1`; saving a crop with zero
width or height as PNG raises; both are caught by the `except` block,
which warns and returns the match unchanged. -/
def replaceMatch (enc : PILImage → Int × Int × Int × Int → List Char)
    (img : PILImage) (g0 g1 g2 : List Char) : List Char × Nat :=
  let refType := pyStrip g1
  if refType = "image".data then
    match pyParseCoords (pyStrip g2) with
    | none => (g0, 1)
    | some coords =>
      match coords with
      | [x1, y1, x2, y2] =>
        let b := resolvedBox x1 y1 x2 y2 img.width img.height
        if b.2.2.1 < b.1 ∨ b.2.2.2 < b.2.1 then (g0, 1)
        else if b.2.2.1 = b.1 ∨ b.2.2.2 = b.2.1 then (g0, 1)
        else (mdImage (enc img b), 0)
      | _ => (g0, 0)
  else (g0, 0)

/-- One step of a `re.sub` scan: the matched span (group 0), the
replacement text, the remaining input after the match, and the number of
warnings emitted while computing the replacement. -/
structure SubM where
  matched : List Char
  repl : List Char
  rest : List Char
  warn : Nat
deriving DecidableEq

/-- Matcher for the embedder's pattern
`<\|ref\|>(.*?)<\|/ref\|>\s*<\|det\|>\s*\[\[(.*?)\]\]\s*<\|/det\|>`
(line 78 of `converter.py`), replacement by `replace_match`. -/
def mEmbed (enc : PILImage → Int × Int × Int × Int → List Char)
    (img : PILImage) (s : List Char) : Option SubM :=
  (dropLit "<|ref|>".data s).bind fun s1 =>
  (scanUntil kPairTail s1).map fun (g1, g2, rest) =>
    let matched := s.take (s.length - rest.length)
    let rw := replaceMatch enc img matched g1 g2
    ⟨matched, rw.1, rest, rw.2⟩

/-- Matcher for `<\|ref\|>.*?<\|/ref\|>` (line 84), replacement empty. -/
def mRefBlock (s : List Char) : Option SubM :=
  (dropLit "<|ref|>".data s).bind fun s1 =>
  (scanUntil kRefClose s1).map fun (_, _, rest) =>
    ⟨s.take (s.length - rest.length), [], rest, 0⟩

/-- Matcher for `<\|det\|>\s*\[\[.*?\]\]\s*<\|/det\|>` (line 87),
replacement empty. -/
def mDetBlock (s : List Char) : Option SubM :=
  (dropLit "<|det|>".data s).bind fun s1 =>
  (dropLit "[[".data (s1.dropWhile pyIsSpace)).bind fun s2 =>
  (scanUntil kDetClose s2).map fun (_, _, rest) =>
    ⟨s.take (s.length - rest.length), [], rest, 0⟩

/-- Character class `[A-Za-z0-9_+-]` of the bare-tag regex. -/
def isTagChar (c : Char) : Bool :=
  c.isAlpha || c.isDigit || c == '_' || c == '+' || c == '-'

/-- Matcher for `<\|/?[A-Za-z0-9_+-]+\|>` (line 90), replacement empty.
The optional `/?` and the greedy class need no backtracking search:
neither `/` nor `|` belongs to the class, so the unique viable parse
consumes an optional `/` and then the maximal class run. -/
def mBareTag (s : List Char) : Option SubM :=
  (dropLit "<|".data s).bind fun s1 =>
    let s2 := match s1 with
      | '/' :: t => t
      | _ => s1
    let name := s2.takeWhile isTagChar
    if name.isEmpty then none
    else
      (dropLit "|>".data (s2.dropWhile isTagChar)).map fun rest =>
        ⟨s.take (s.length - rest.length), [], rest, 0⟩

/-- Matcher for `\\\((.*?)\\\)` (line 93), replacement `$\1$`. -/
def mLatexParen (s : List Char) : Option SubM :=
  (dropLit "\\(".data s).bind fun s1 =>
  (scanUntil kParenClose s1).map fun (g, _, rest) =>
    ⟨s.take (s.length - rest.length), '$' :: (g ++ ['$']), rest, 0⟩

/-- Matcher for `\\\[(.*?)\\\]` (line 94), replacement `$$\1$$`. -/
def mLatexBrack (s : List Char) : Option SubM :=
  (dropLit "\\[".data s).bind fun s1 =>
  (scanUntil kBrackClose s1).map fun (g, _, rest) =>
    ⟨s.take (s.length - rest.length), "$$".data ++ g ++ "$$".data, rest, 0⟩

/-- Matcher for `\n{2,}` (line 97), replacement `"\n\n"`.  The greedy
counted repetition with no following pattern consumes the maximal newline
run. -/
def mCollapse (s : List Char) : Option SubM :=
  match s with
  | '\n' :: '\n' :: _ =>
    some ⟨s.takeWhile (· == '\n'), "\n\n".data, s.dropWhile (· == '\n'), 0⟩
  | _ => none

/-- Fueled `re.sub` scanner: at each position try the matcher; on a match
emit the replacement and continue after the match, otherwise copy one
character.  Also sums the warning counts of the replacements.  The fuel
only serves Lean's termination checking; `reSubL` supplies enough fuel
for any matcher that consumes at least one character per match. -/
def reSubF (M : List Char → Option SubM) : Nat → List Char → List Char × Nat
  | 0, s => (s, 0)
  | fuel + 1, s =>
    match M s with
    | some m =>
      let t := reSubF M fuel m.rest
      (m.repl ++ t.1, m.warn + t.2)
    | none =>
      match s with
      | [] => ([], 0)
      | c :: cs =>
        let t := reSubF M fuel cs
        (c :: t.1, t.2)

/-- `re.sub` with sufficient fuel. -/
def reSubL (M : List Char → Option SubM) (s : List Char) : List Char × Nat :=
  reSubF M (s.length + 1) s

/-- Lines 36–79 of `converter.py`: `extract_and_embed_images`, returning
the rewritten text and the number of warnings written to stderr. -/
def extractAndEmbedL (enc : PILImage → Int × Int × Int × Int → List Char)
    (img : PILImage) (s : List Char) : List Char × Nat :=
  reSubL (mEmbed enc img) s

/-- Line 97 of `converter.py`: collapse runs of two or more newlines into
exactly two. -/
def collapseL (s : List Char) : List Char :=
  (reSubL mCollapse s).1

/-- Lines 82–99 of `converter.py`: `clean_text`. -/
def cleanTextL (s : List Char) : List Char :=
  let s1 := (reSubL mRefBlock s).1
  let s2 := (reSubL mDetBlock s1).1
  let s3 := (reSubL mBareTag s2).1
  let s4 := (reSubL mLatexParen s3).1
  let s5 := (reSubL mLatexBrack s4).1
  collapseL s5

/-- String-level wrapper of `clean_text`. -/
def cleanText (s : String) : String :=
  String.mk (cleanTextL s.data)

/-- Decimal digit character. -/
def digitChar (n : Nat) : Char := Char.ofNat (48 + n)

/-- Fueled decimal printing of a natural number. -/
def natDecimalF : Nat → Nat → List Char
  | 0, _ => []
  | fuel + 1, n =>
    if n < 10 then [digitChar n]
    else natDecimalF fuel (n / 10) ++ [digitChar (n % 10)]

/-- Decimal rendering of a page index, as Python's f-string prints it. -/
def natDecimal (n : Nat) : List Char := natDecimalF (n + 1) n

/-- Line 182 of `converter.py`: the provenance header. -/
def headerL (name : List Char) : List Char :=
  "<!-- Generated by converter.py from ".data ++ name ++ " -->\n\n".data

/-- Line 185 of `converter.py`: the per-page marker. -/
def pageMarkerL (i : Nat) : List Char :=
  "<!-- Page ".data ++ natDecimal i ++ " -->\n\n".data

/-- Lines 181–187 of `converter.py`: the assembly loop.  For each
`(i, text)` in `results` a page marker is written only when the document
has more than one page, then the page text, then a blank line. -/
def assembleL (name : List Char) (results : List (Nat × List Char)) : List Char :=
  headerL name ++
    (results.map fun p =>
      (if 1 < results.length then pageMarkerL p.1 else []) ++ p.2 ++ "\n\n".data).flatten

/-- Substring test (at any position). -/
def containsSubB (p s : List Char) : Bool :=
  s.tails.any fun t => p.isPrefixOf t

/-- Number of positions of `s` at which `p` occurs as a substring. -/
def countOccur (p s : List Char) : Nat :=
  s.tails.countP fun t => p.isPrefixOf t

/-- A matcher makes progress: every match consumes at least one character. -/
def Progresses (M : List Char → Option SubM) : Prop :=
  ∀ s m, M s = some m → m.rest.length < s.length

/-- The detection block `<|det|>[[c]]<|/det|>` standing after a reference
block in `refDetPair`. -/
def detTail (c : List Char) : List Char :=
  "<|det|>".data ++ ("[[".data ++ (c ++ ("]]".data ++ "<|/det|>".data)))

/-- A reference-detection pair as matched by the tag grammar: value `v`,
coordinate text `c`, no whitespace between the closing reference tag and
the detection tag. -/
def refDetPair (v c : List Char) : List Char :=
  "<|ref|>".data ++ (v ++ ("<|/ref|>".data ++ detTail c))

/-- Modelled from the spec (§4.2): `pixel = round(normalized / 1000 *
dimension)` then clamp into `[0, dimension]`; round is half-up
`⌊x + 1/2⌋` (the inputs compared below are not half-cases, so the
half-rule is immaterial).  For comparison with `codePixel`. -/
def specPixel (n : Int) (d : Nat) : Int :=
  max 0 (min (Int.fdiv (2 * n * d + 1000) 2000) d)

/-- A concrete serialiser instance used to evaluate the model on concrete
inputs; the payload text is opaque to every property proved here. -/
def encStub : PILImage → Int × Int × Int × Int → List Char := fun _ _ => []

/-! ## Basic lemmas about the scanning primitives -/

/-- Bridge from the executable substring test to the `<+:` order. -/
theorem isPrefixOf_true_iff {p t : List Char} : p.isPrefixOf t = true ↔ p <+: t :=
  List.isPrefixOf_iff_prefix

theorem containsSubB_cons {p : List Char} {c : Char} {s : List Char} :
    containsSubB p (c :: s) = (p.isPrefixOf (c :: s) || containsSubB p s) := by
  simp [containsSubB, List.tails_cons]

theorem containsSubB_false_iff {p s : List Char} :
    containsSubB p s = false ↔ ∀ t, t <:+ s → ¬ p <+: t := by
  constructor
  · intro h t ht hp
    have : containsSubB p s = true := by
      unfold containsSubB
      exact List.any_eq_true.2 ⟨t, (List.mem_tails _ _).2 ht, isPrefixOf_true_iff.2 hp⟩
    rw [h] at this
    exact Bool.false_ne_true this
  · intro h
    by_contra hb
    have : containsSubB p s = true := by
      cases hc : containsSubB p s
      · exact absurd hc hb
      · rfl
    unfold containsSubB at this
    obtain ⟨t, ht, hp⟩ := List.any_eq_true.1 this
    exact h t ((List.mem_tails _ _).1 ht) (isPrefixOf_true_iff.1 hp)

theorem dropLit_eq_some : ∀ {p s r : List Char}, dropLit p s = some r → s = p ++ r
  | [], s, r, h => by simpa [dropLit] using h
  | p :: ps, c :: cs, r, h => by
    by_cases hpc : p = c
    · subst hpc
      simp only [dropLit, if_pos rfl] at h
      simpa using congrArg (p :: ·) (dropLit_eq_some h)
    · simp [dropLit, hpc] at h

theorem dropLit_self : ∀ (p r : List Char), dropLit p (p ++ r) = some r
  | [], _ => rfl
  | p :: ps, r => by simp [dropLit, dropLit_self ps r]

theorem dropLit_pre {p s r : List Char} (h : dropLit p s = some r) : p <+: s :=
  ⟨r, (dropLit_eq_some h).symm⟩

theorem dropLit_none {p s : List Char} (h : ¬ p <+: s) : dropLit p s = none := by
  cases hd : dropLit p s with
  | none => rfl
  | some r => exact absurd (dropLit_pre hd) h

theorem take_head_of_suffix {s r : List Char} (h : r <:+ s) :
    s.take (s.length - r.length) ++ r = s := by
  obtain ⟨pre, rfl⟩ := h
  have hl : (pre ++ r).length - r.length = pre.length := by simp
  rw [hl, List.take_left]

/-! ## Structure of `scanUntil` matches -/

theorem scanUntil_eq_some {K : List Char → Option (β × List Char)} :
    ∀ {s g : List Char} {b : β} {r : List Char},
      scanUntil K s = some (g, b, r) → ∃ m, s = g ++ m ∧ K m = some (b, r) := by
  intro s
  induction s with
  | nil =>
    intro g b r h
    simp only [scanUntil] at h
    cases hK : K [] with
    | none => rw [hK] at h; exact absurd h (by simp)
    | some p =>
      rw [hK] at h
      obtain ⟨b', r'⟩ := p
      simp only [Option.some.injEq, Prod.mk.injEq] at h
      exact ⟨[], by simp [← h.1, ← h.2.1, ← h.2.2, hK]⟩
  | cons c cs ih =>
    intro g b r h
    simp only [scanUntil] at h
    cases hK : K (c :: cs) with
    | some p =>
      rw [hK] at h
      obtain ⟨b', r'⟩ := p
      simp only [Option.some.injEq, Prod.mk.injEq] at h
      exact ⟨c :: cs, by simp [← h.1, ← h.2.1, ← h.2.2, hK]⟩
    | none =>
      rw [hK] at h
      cases hs : scanUntil K cs with
      | none => rw [hs] at h; exact absurd h (by simp)
      | some q =>
        rw [hs] at h
        obtain ⟨g', b', r'⟩ := q
        simp only [Option.some.injEq, Prod.mk.injEq] at h
        obtain ⟨m, hm, hKm⟩ := ih hs
        refine ⟨m, ?_, ?_⟩
        · rw [← h.1, hm]; rfl
        · rw [h.2.1, h.2.2] at hKm; exact hKm

theorem scanUntil_boundary {K : List Char → Option (β × List Char)} {b : β}
    {tail r : List Char} (hK : K tail = some (b, r)) :
    ∀ (g : List Char),
      (∀ t, t <:+ g ++ tail → tail.length < t.length → K t = none) →
      scanUntil K (g ++ tail) = some (g, b, r) := by
  intro g
  induction g with
  | nil =>
    intro _
    cases tail with
    | nil => simp [scanUntil, hK]
    | cons c cs => simp [scanUntil, hK]
  | cons c g' ih =>
    intro hNo
    have hKs : K (c :: (g' ++ tail)) = none := by
      apply hNo
      · exact List.suffix_rfl
      · simp only [List.length_cons, List.length_append]
        omega
    have ihs : scanUntil K (g' ++ tail) = some (g', b, r) := by
      apply ih
      intro t ht hlen
      exact hNo t (ht.trans (List.suffix_cons c _)) hlen
    simp only [List.cons_append, scanUntil, List.append_eq, hKs, ihs]

theorem scanUntil_suffix {K : List Char → Option (β × List Char)}
    (hK : ∀ t (b : β) r, K t = some (b, r) → r <:+ t)
    {s g : List Char} {b : β} {r : List Char}
    (h : scanUntil K s = some (g, b, r)) : r <:+ s := by
  obtain ⟨m, rfl, hKm⟩ := scanUntil_eq_some h
  exact (hK m b r hKm).trans (List.suffix_append g m)

/-! ## Suffix and failure lemmas for the closing patterns -/

theorem suffix_of_dropLit {p t r : List Char} (h : dropLit p t = some r) : r <:+ t := by
  rw [dropLit_eq_some h]
  exact List.suffix_append _ _

theorem kRefClose_suffix : ∀ (t : List Char) (b : Unit) (r : List Char),
    kRefClose t = some (b, r) → r <:+ t := by
  intro t b r h
  simp only [kRefClose, Option.map_eq_some', Prod.mk.injEq] at h
  obtain ⟨r', hd, -, rfl⟩ := h
  exact suffix_of_dropLit hd

theorem kDetClose_suffix : ∀ (t : List Char) (b : Unit) (r : List Char),
    kDetClose t = some (b, r) → r <:+ t := by
  intro t b r h
  simp only [kDetClose, Option.bind_eq_some, Option.map_eq_some', Prod.mk.injEq] at h
  obtain ⟨r1, hd1, r2, hd2, -, rfl⟩ := h
  exact ((suffix_of_dropLit hd2).trans (List.dropWhile_suffix _)).trans (suffix_of_dropLit hd1)

theorem kParenClose_suffix : ∀ (t : List Char) (b : Unit) (r : List Char),
    kParenClose t = some (b, r) → r <:+ t := by
  intro t b r h
  simp only [kParenClose, Option.map_eq_some', Prod.mk.injEq] at h
  obtain ⟨r', hd, -, rfl⟩ := h
  exact suffix_of_dropLit hd

theorem kBrackClose_suffix : ∀ (t : List Char) (b : Unit) (r : List Char),
    kBrackClose t = some (b, r) → r <:+ t := by
  intro t b r h
  simp only [kBrackClose, Option.map_eq_some', Prod.mk.injEq] at h
  obtain ⟨r', hd, -, rfl⟩ := h
  exact suffix_of_dropLit hd

theorem kPairTail_suffix : ∀ (t : List Char) (b r : List Char),
    kPairTail t = some (b, r) → r <:+ t := by
  intro t b r h
  simp only [kPairTail, Option.bind_eq_some, Option.map_eq_some', Prod.mk.injEq] at h
  obtain ⟨r1, hd1, r2, hd2, r3, hd3, ⟨g2, u, rest⟩, hs, -, rfl⟩ := h
  have h4 : rest <:+ r3 := scanUntil_suffix kDetClose_suffix hs
  have h3 : r3 <:+ r2 := (suffix_of_dropLit hd3).trans (List.dropWhile_suffix _)
  have h2 : r2 <:+ r1 := (suffix_of_dropLit hd2).trans (List.dropWhile_suffix _)
  exact ((h4.trans h3).trans h2).trans (suffix_of_dropLit hd1)

theorem kPairTail_none {t : List Char} (h : dropLit "<|/ref|>".data t = none) :
    kPairTail t = none := by
  simp [kPairTail, h]

/-! ## Per-matcher structure lemmas -/

theorem mEmbed_spec {enc : PILImage → Int × Int × Int × Int → List Char}
    {img : PILImage} {s : List Char} {m : SubM} (h : mEmbed enc img s = some m) :
    m.rest <:+ s ∧ m.rest.length < s.length ∧ m.matched ++ m.rest = s := by
  simp only [mEmbed, Option.bind_eq_some, Option.map_eq_some'] at h
  obtain ⟨s1, hd, ⟨g1, g2, rest⟩, hs, heq⟩ := h
  obtain rfl := heq.symm
  have hsub : rest <:+ s1 := scanUntil_suffix kPairTail_suffix hs
  have hseq : s = "<|ref|>".data ++ s1 := dropLit_eq_some hd
  have h1 : rest <:+ s := by
    rw [hseq]; exact hsub.trans (List.suffix_append _ _)
  have h2 : rest.length < s.length := by
    have := hsub.length_le
    rw [hseq]
    simp only [List.length_append, List.length_cons, List.length_nil]
    omega
  exact ⟨h1, h2, take_head_of_suffix h1⟩

theorem mEmbed_prog (enc : PILImage → Int × Int × Int × Int → List Char)
    (img : PILImage) : Progresses (mEmbed enc img) :=
  fun _ _ h => (mEmbed_spec h).2.1

theorem replaceMatch_cases (enc : PILImage → Int × Int × Int × Int → List Char)
    (img : PILImage) (g0 g1 g2 : List Char) :
    (replaceMatch enc img g0 g1 g2).1 = g0 ∨
      ∃ b, (replaceMatch enc img g0 g1 g2).1 = mdImage (enc img b) := by
  by_cases h1 : pyStrip g1 = "image".data
  · cases hp : pyParseCoords (pyStrip g2) with
    | none => exact Or.inl (by simp [replaceMatch, h1, hp])
    | some coords =>
      rcases coords with - | ⟨x1, - | ⟨y1, - | ⟨x2, - | ⟨y2, - | ⟨c5, cs⟩⟩⟩⟩⟩
      · exact Or.inl (by simp [replaceMatch, h1, hp])
      · exact Or.inl (by simp [replaceMatch, h1, hp])
      · exact Or.inl (by simp [replaceMatch, h1, hp])
      · exact Or.inl (by simp [replaceMatch, h1, hp])
      · by_cases h2 : (resolvedBox x1 y1 x2 y2 img.width img.height).2.2.1 <
              (resolvedBox x1 y1 x2 y2 img.width img.height).1 ∨
            (resolvedBox x1 y1 x2 y2 img.width img.height).2.2.2 <
              (resolvedBox x1 y1 x2 y2 img.width img.height).2.1
        · exact Or.inl (by simp [replaceMatch, h1, hp, h2])
        · by_cases h3 : (resolvedBox x1 y1 x2 y2 img.width img.height).2.2.1 =
                (resolvedBox x1 y1 x2 y2 img.width img.height).1 ∨
              (resolvedBox x1 y1 x2 y2 img.width img.height).2.2.2 =
                (resolvedBox x1 y1 x2 y2 img.width img.height).2.1
          · exact Or.inl (by simp [replaceMatch, h1, hp, h2, h3])
          · exact Or.inr ⟨resolvedBox x1 y1 x2 y2 img.width img.height,
              by simp [replaceMatch, h1, hp, h2, h3]⟩
      · exact Or.inl (by simp [replaceMatch, h1, hp])
  · exact Or.inl (by simp [replaceMatch, h1])

theorem mEmbed_repl {enc : PILImage → Int × Int × Int × Int → List Char}
    {img : PILImage} {s : List Char} {m : SubM} (h : mEmbed enc img s = some m) :
    m.repl = m.matched ∨ ∃ b, m.repl = mdImage (enc img b) := by
  simp only [mEmbed, Option.bind_eq_some, Option.map_eq_some'] at h
  obtain ⟨s1, hd, ⟨g1, g2, rest⟩, hs, heq⟩ := h
  obtain rfl := heq.symm
  exact replaceMatch_cases enc img (s.take (s.length - rest.length)) g1 g2

theorem mEmbed_pre {enc : PILImage → Int × Int × Int × Int → List Char}
    {img : PILImage} {s : List Char} {m : SubM} (h : mEmbed enc img s = some m) :
    "<|".data <+: s := by
  simp only [mEmbed, Option.bind_eq_some, Option.map_eq_some'] at h
  obtain ⟨s1, hd, -⟩ := h
  exact List.IsPrefix.trans (by decide) (dropLit_pre hd)

theorem mRefBlock_spec {s : List Char} {m : SubM} (h : mRefBlock s = some m) :
    m.rest <:+ s ∧ m.rest.length < s.length ∧ m.matched ++ m.rest = s ∧
      m.repl = [] ∧ m.warn = 0 := by
  simp only [mRefBlock, Option.bind_eq_some, Option.map_eq_some'] at h
  obtain ⟨s1, hd, ⟨g, u, rest⟩, hs, heq⟩ := h
  obtain rfl := heq.symm
  have hsub : rest <:+ s1 := scanUntil_suffix kRefClose_suffix hs
  have hseq : s = "<|ref|>".data ++ s1 := dropLit_eq_some hd
  have h1 : rest <:+ s := by
    rw [hseq]; exact hsub.trans (List.suffix_append _ _)
  have h2 : rest.length < s.length := by
    have := hsub.length_le
    rw [hseq]
    simp only [List.length_append, List.length_cons, List.length_nil]
    omega
  exact ⟨h1, h2, take_head_of_suffix h1, rfl, rfl⟩

theorem mRefBlock_prog : Progresses mRefBlock :=
  fun _ _ h => (mRefBlock_spec h).2.1

theorem mRefBlock_pre {s : List Char} {m : SubM} (h : mRefBlock s = some m) :
    "<|".data <+: s := by
  simp only [mRefBlock, Option.bind_eq_some, Option.map_eq_some'] at h
  obtain ⟨s1, hd, -⟩ := h
  exact List.IsPrefix.trans (by decide) (dropLit_pre hd)

theorem mDetBlock_spec {s : List Char} {m : SubM} (h : mDetBlock s = some m) :
    m.rest <:+ s ∧ m.rest.length < s.length ∧ m.matched ++ m.rest = s ∧
      m.repl = [] ∧ m.warn = 0 := by
  simp only [mDetBlock, Option.bind_eq_some, Option.map_eq_some'] at h
  obtain ⟨s1, hd, s2, hd2, ⟨g, u, rest⟩, hs, heq⟩ := h
  obtain rfl := heq.symm
  have hsub : rest <:+ s2 := scanUntil_suffix kDetClose_suffix hs
  have hs2 : s2 <:+ s1 :=
    (suffix_of_dropLit hd2).trans (List.dropWhile_suffix _)
  have hseq : s = "<|det|>".data ++ s1 := dropLit_eq_some hd
  have h1 : rest <:+ s := by
    rw [hseq]; exact ((hsub.trans hs2).trans (List.suffix_append _ _))
  have h2 : rest.length < s.length := by
    have ha := hsub.length_le
    have hb := hs2.length_le
    rw [hseq]
    simp only [List.length_append, List.length_cons, List.length_nil]
    omega
  exact ⟨h1, h2, take_head_of_suffix h1, rfl, rfl⟩

theorem mDetBlock_prog : Progresses mDetBlock :=
  fun _ _ h => (mDetBlock_spec h).2.1

theorem mDetBlock_pre {s : List Char} {m : SubM} (h : mDetBlock s = some m) :
    "<|".data <+: s := by
  simp only [mDetBlock, Option.bind_eq_some, Option.map_eq_some'] at h
  obtain ⟨s1, hd, -⟩ := h
  exact List.IsPrefix.trans (by decide) (dropLit_pre hd)

theorem mBareTag_spec {s : List Char} {m : SubM} (h : mBareTag s = some m) :
    m.rest <:+ s ∧ m.rest.length < s.length ∧ m.matched ++ m.rest = s ∧
      m.repl = [] ∧ m.warn = 0 := by
  simp only [mBareTag, Option.bind_eq_some, Option.map_eq_some'] at h
  obtain ⟨s1, hd, h2⟩ := h
  split at h2
  · exact absurd h2 (by simp)
  · simp only [Option.map_eq_some'] at h2
    obtain ⟨rest, hdr, heq⟩ := h2
    obtain rfl := heq.symm
    have hseq : s = "<|".data ++ s1 := dropLit_eq_some hd
    have hs2 : (match s1 with | '/' :: t => t | _ => s1) <:+ s1 := by
      split
      · exact (List.suffix_cons _ _)
      · exact List.suffix_rfl
    have h1 : rest <:+ s := by
      rw [hseq]
      exact (((suffix_of_dropLit hdr).trans (List.dropWhile_suffix _)).trans hs2).trans
        (List.suffix_append _ _)
    have hlen : rest.length < s.length := by
      have ha := (suffix_of_dropLit hdr).length_le
      have hb := (List.dropWhile_suffix (l :=
        (match s1 with | '/' :: t => t | _ => s1)) isTagChar).length_le
      have hc := hs2.length_le
      rw [hseq]
      simp only [List.length_append, List.length_cons, List.length_nil]
      omega
    exact ⟨h1, hlen, take_head_of_suffix h1, rfl, rfl⟩

theorem mBareTag_prog : Progresses mBareTag :=
  fun _ _ h => (mBareTag_spec h).2.1

theorem mBareTag_pre {s : List Char} {m : SubM} (h : mBareTag s = some m) :
    "<|".data <+: s := by
  simp only [mBareTag, Option.bind_eq_some, Option.map_eq_some'] at h
  obtain ⟨s1, hd, -⟩ := h
  exact dropLit_pre hd

theorem mLatexParen_spec {s : List Char} {m : SubM} (h : mLatexParen s = some m) :
    m.rest <:+ s ∧ m.rest.length < s.length ∧ m.matched ++ m.rest = s := by
  simp only [mLatexParen, Option.bind_eq_some, Option.map_eq_some'] at h
  obtain ⟨s1, hd, ⟨g, u, rest⟩, hs, heq⟩ := h
  obtain rfl := heq.symm
  have hsub : rest <:+ s1 := scanUntil_suffix kParenClose_suffix hs
  have hseq : s = "\\(".data ++ s1 := dropLit_eq_some hd
  have h1 : rest <:+ s := by
    rw [hseq]; exact hsub.trans (List.suffix_append _ _)
  have h2 : rest.length < s.length := by
    have := hsub.length_le
    rw [hseq]
    simp only [List.length_append, List.length_cons, List.length_nil]
    omega
  exact ⟨h1, h2, take_head_of_suffix h1⟩

theorem mLatexParen_prog : Progresses mLatexParen :=
  fun _ _ h => (mLatexParen_spec h).2.1

theorem mLatexParen_pre {s : List Char} {m : SubM} (h : mLatexParen s = some m) :
    "\\(".data <+: s := by
  simp only [mLatexParen, Option.bind_eq_some, Option.map_eq_some'] at h
  obtain ⟨s1, hd, -⟩ := h
  exact dropLit_pre hd

theorem mLatexBrack_spec {s : List Char} {m : SubM} (h : mLatexBrack s = some m) :
    m.rest <:+ s ∧ m.rest.length < s.length ∧ m.matched ++ m.rest = s := by
  simp only [mLatexBrack, Option.bind_eq_some, Option.map_eq_some'] at h
  obtain ⟨s1, hd, ⟨g, u, rest⟩, hs, heq⟩ := h
  obtain rfl := heq.symm
  have hsub : rest <:+ s1 := scanUntil_suffix kBrackClose_suffix hs
  have hseq : s = "\\[".data ++ s1 := dropLit_eq_some hd
  have h1 : rest <:+ s := by
    rw [hseq]; exact hsub.trans (List.suffix_append _ _)
  have h2 : rest.length < s.length := by
    have := hsub.length_le
    rw [hseq]
    simp only [List.length_append, List.length_cons, List.length_nil]
    omega
  exact ⟨h1, h2, take_head_of_suffix h1⟩

theorem mLatexBrack_prog : Progresses mLatexBrack :=
  fun _ _ h => (mLatexBrack_spec h).2.1

theorem mLatexBrack_pre {s : List Char} {m : SubM} (h : mLatexBrack s = some m) :
    "\\[".data <+: s := by
  simp only [mLatexBrack, Option.bind_eq_some, Option.map_eq_some'] at h
  obtain ⟨s1, hd, -⟩ := h
  exact dropLit_pre hd

theorem mCollapse_spec {s : List Char} {m : SubM} (h : mCollapse s = some m) :
    m.rest <:+ s ∧ m.rest.length < s.length ∧ m.matched ++ m.rest = s := by
  unfold mCollapse at h
  split at h
  · next t =>
    obtain rfl := Option.some.inj h
    refine ⟨List.dropWhile_suffix _, ?_, List.takeWhile_append_dropWhile _ _⟩
    have : (('\n' :: '\n' :: t).dropWhile (· == '\n')) = t.dropWhile (· == '\n') := by
      simp [List.dropWhile_cons]
    rw [this]
    have := (List.dropWhile_suffix (l := t) (· == '\n')).length_le
    simp only [List.length_cons]
    omega
  · exact absurd h (by simp)

theorem mCollapse_prog : Progresses mCollapse :=
  fun _ _ h => (mCollapse_spec h).2.1

/-! ## Generic lemmas about the `re.sub` scanner -/

theorem reSubF_fuel_inv {M : List Char → Option SubM} (hM : Progresses M) :
    ∀ (f₁ f₂ : Nat) (s : List Char), s.length < f₁ → s.length < f₂ →
      reSubF M f₁ s = reSubF M f₂ s := by
  intro f₁
  induction f₁ with
  | zero => intro f₂ s h1 _; exact absurd h1 (by omega)
  | succ a ih =>
    intro f₂ s h1 h2
    cases f₂ with
    | zero => exact absurd h2 (by omega)
    | succ b =>
      cases hm : M s with
      | some m =>
        have hr : m.rest.length < s.length := hM s m hm
        simp only [reSubF, hm]
        rw [ih b m.rest (by omega) (by omega)]
      | none =>
        cases s with
        | nil => simp [reSubF, hm]
        | cons c cs =>
          have h1' : cs.length < a := by simp at h1; omega
          have h2' : cs.length < b := by simp at h2; omega
          simp only [reSubF, hm]
          rw [ih b cs h1' h2']

theorem reSubL_match {M : List Char → Option SubM} (hM : Progresses M)
    {s : List Char} {m : SubM} (h : M s = some m) :
    reSubL M s = (m.repl ++ (reSubL M m.rest).1, m.warn + (reSubL M m.rest).2) := by
  have hr : m.rest.length < s.length := hM s m h
  unfold reSubL
  have step : reSubF M (s.length + 1) s =
      (m.repl ++ (reSubF M s.length m.rest).1, m.warn + (reSubF M s.length m.rest).2) := by
    simp only [reSubF, h]
  rw [step, reSubF_fuel_inv hM s.length (m.rest.length + 1) m.rest (by omega) (by omega)]

theorem reSubL_copy {M : List Char → Option SubM} (hM : Progresses M)
    {c : Char} {cs : List Char} (h : M (c :: cs) = none) :
    reSubL M (c :: cs) = (c :: (reSubL M cs).1, (reSubL M cs).2) := by
  unfold reSubL
  have step : reSubF M ((c :: cs).length + 1) (c :: cs) =
      (c :: (reSubF M (c :: cs).length cs).1, (reSubF M (c :: cs).length cs).2) := by
    simp only [reSubF, h]
  rw [step, reSubF_fuel_inv hM (c :: cs).length (cs.length + 1) cs (by simp) (by omega)]

theorem reSubL_nil {M : List Char → Option SubM} (h : M [] = none) :
    reSubL M [] = ([], 0) := by
  unfold reSubL
  simp [reSubF, h]

theorem reSubL_no_match {M : List Char → Option SubM} (hM : Progresses M) :
    ∀ {s : List Char}, (∀ t, t <:+ s → M t = none) → reSubL M s = (s, 0) := by
  intro s
  induction s with
  | nil => intro h; exact reSubL_nil (h [] List.suffix_rfl)
  | cons c cs ih =>
    intro h
    rw [reSubL_copy hM (h _ List.suffix_rfl)]
    rw [ih fun t ht => h t (ht.trans (List.suffix_cons c cs))]

/-- Frame decomposition of a full scan: the input splits into segments
whose concatenation is the input, each segment being either copied
verbatim into the output or a whole match replaced by its replacement. -/
theorem reSubL_decomp {M : List Char → Option SubM} (hM : Progresses M)
    (hSpan : ∀ s m, M s = some m → m.matched ++ m.rest = s) :
    ∀ (n : Nat) (s : List Char), s.length ≤ n →
      ∃ segs : List (List Char × List Char),
        (segs.map Prod.fst).flatten = s ∧
        (segs.map Prod.snd).flatten = (reSubL M s).1 ∧
        ∀ q ∈ segs, q.2 = q.1 ∨ ∃ t m, M t = some m ∧ q.1 = m.matched ∧ q.2 = m.repl := by
  intro n
  induction n with
  | zero =>
    intro s hs
    have : s = [] := List.length_eq_zero.1 (by omega)
    subst this
    have hnil : M [] = none := by
      cases hm : M [] with
      | none => rfl
      | some m => exact absurd (hM [] m hm) (by simp)
    exact ⟨[], by simp, by simp [reSubL_nil hnil], by simp⟩
  | succ a ih =>
    intro s hs
    cases hm : M s with
    | some m =>
      have hr : m.rest.length < s.length := hM s m hm
      obtain ⟨segs, h1, h2, h3⟩ := ih m.rest (by omega)
      refine ⟨(m.matched, m.repl) :: segs, ?_, ?_, ?_⟩
      · simp only [List.map_cons, List.flatten_cons, h1]
        exact hSpan s m hm
      · simp only [List.map_cons, List.flatten_cons, h2]
        rw [reSubL_match hM hm]
      · intro q hq
        rcases List.mem_cons.1 hq with hq | hq
        · exact Or.inr ⟨s, m, hm, by rw [hq], by rw [hq]⟩
        · exact h3 q hq
    | none =>
      cases s with
      | nil => exact ⟨[], by simp, by simp [reSubL_nil hm], by simp⟩
      | cons c cs =>
        obtain ⟨segs, h1, h2, h3⟩ := ih cs (by simp at hs; omega)
        refine ⟨([c], [c]) :: segs, ?_, ?_, ?_⟩
        · simp only [List.map_cons, List.flatten_cons, h1]
          rfl
        · simp only [List.map_cons, List.flatten_cons, h2]
          rw [reSubL_copy hM hm]
          rfl
        · intro q hq
          rcases List.mem_cons.1 hq with hq | hq
          · exact Or.inl (by rw [hq])
          · exact h3 q hq

/-! ## Identity of a scan on strings without the pattern's lead literal -/

theorem reSubL_id_of_noSub {M : List Char → Option SubM} {L : List Char}
    (hM : Progresses M) (hpre : ∀ t m, M t = some m → L <+: t)
    {s : List Char} (h : containsSubB L s = false) : reSubL M s = (s, 0) := by
  apply reSubL_no_match hM
  intro t ht
  cases hm : M t with
  | none => rfl
  | some m => exact absurd (hpre t m hm) (containsSubB_false_iff.1 h t ht)

theorem containsSubB_tail {p : List Char} {c : Char} {s : List Char}
    (h : containsSubB p (c :: s) = false) : containsSubB p s = false := by
  rw [containsSubB_cons] at h
  exact (Bool.or_eq_false_iff.1 h).2

/-! ## The blank-line collapse and its idempotence -/

theorem head_dropWhile_false (p : Char → Bool) :
    ∀ (s : List Char) (c : Char), (s.dropWhile p).head? = some c → p c = false := by
  intro s
  induction s with
  | nil => intro c h; simp [List.dropWhile] at h
  | cons a as ih =>
    intro c h
    cases hpa : p a with
    | true =>
      rw [List.dropWhile_cons, hpa] at h
      simp only [if_true] at h
      exact ih c h
    | false =>
      rw [List.dropWhile_cons, hpa] at h
      simp only [Bool.false_eq_true, if_false, List.head?_cons, Option.some.injEq] at h
      subst h
      exact hpa

theorem mCollapse_none {s : List Char} (h : ∀ t, s ≠ '\n' :: '\n' :: t) :
    mCollapse s = none := by
  unfold mCollapse
  split
  · next t => exact absurd rfl (h t)
  · rfl

theorem mCollapse_two (t : List Char) :
    mCollapse ('\n' :: '\n' :: t) =
      some ⟨'\n' :: '\n' :: t.takeWhile (· == '\n'), "\n\n".data,
        t.dropWhile (· == '\n'), 0⟩ := by
  simp [mCollapse, List.takeWhile_cons, List.dropWhile_cons]

theorem collapseL_nil : collapseL [] = [] := by
  unfold collapseL
  rw [reSubL_nil rfl]

theorem collapseL_copy {c : Char} {cs : List Char} (h : mCollapse (c :: cs) = none) :
    collapseL (c :: cs) = c :: collapseL cs := by
  unfold collapseL
  rw [reSubL_copy mCollapse_prog h]

theorem collapseL_two (t : List Char) (ht : t.head? ≠ some '\n') :
    collapseL ('\n' :: '\n' :: t) = '\n' :: '\n' :: collapseL t := by
  have htw : t.takeWhile (· == '\n') = [] := by
    cases t with
    | nil => rfl
    | cons d ds =>
      have hd : d ≠ '\n' := by
        intro hd
        exact ht (by rw [hd]; rfl)
      rw [List.takeWhile_cons]
      simp [hd]
  have hdw : t.dropWhile (· == '\n') = t := by
    cases t with
    | nil => rfl
    | cons d ds =>
      have hd : d ≠ '\n' := by
        intro hd
        exact ht (by rw [hd]; rfl)
      rw [List.dropWhile_cons]
      simp [hd]
  unfold collapseL
  rw [reSubL_match mCollapse_prog (mCollapse_two t), htw, hdw]
  rfl

theorem three_nl_pre {c : Char} {X : List Char} (h : "\n\n\n".data <+: c :: X) :
    c = '\n' ∧ "\n\n".data <+: X := by
  obtain ⟨t, ht⟩ := h
  have ht' : '\n' :: '\n' :: '\n' :: t = c :: X := ht
  injection ht' with h1 h2
  exact ⟨h1.symm, t, h2⟩

theorem two_nl_pre {X : List Char} (h : "\n\n".data <+: X) : X.head? = some '\n' := by
  obtain ⟨t, ht⟩ := h
  rw [← ht]
  rfl

theorem two_nl_pre_cons {X : List Char} (h : "\n\n".data <+: '\n' :: X) :
    X.head? = some '\n' := by
  obtain ⟨t, ht⟩ := h
  have ht' : '\n' :: '\n' :: t = '\n' :: X := ht
  injection ht' with _ h2
  rw [← h2]
  rfl

theorem collapseL_head : ∀ (s : List Char), (collapseL s).head? = s.head? := by
  intro s
  cases s with
  | nil => rw [collapseL_nil]
  | cons c cs =>
    by_cases hc : c = '\n'
    · subst hc
      cases cs with
      | nil =>
        rw [collapseL_copy (mCollapse_none (by intro t h; injection h with _ h; simp at h))]
        rfl
      | cons c2 t =>
        by_cases hc2 : c2 = '\n'
        · subst hc2
          unfold collapseL
          rw [reSubL_match mCollapse_prog (mCollapse_two t)]
          rfl
        · rw [collapseL_copy (mCollapse_none ?_)]
          · rfl
          · intro u h
            injection h with _ h
            injection h with h _
            exact hc2 h
    · rw [collapseL_copy (mCollapse_none ?_)]
      · rfl
      · intro u h
        injection h with h _
        exact hc h

theorem collapseL_of_noNNN :
    ∀ (n : Nat) (s : List Char), s.length ≤ n →
      containsSubB "\n\n\n".data s = false → collapseL s = s := by
  intro n
  induction n with
  | zero =>
    intro s hs _
    have : s = [] := List.length_eq_zero.1 (by omega)
    subst this
    exact collapseL_nil
  | succ a ih =>
    intro s hs hn
    cases s with
    | nil => exact collapseL_nil
    | cons c cs =>
      by_cases hc : c = '\n'
      · subst hc
        cases cs with
        | nil =>
          rw [collapseL_copy (mCollapse_none (by intro t h; injection h with _ h; simp at h))]
          rw [collapseL_nil]
        | cons c2 t =>
          by_cases hc2 : c2 = '\n'
          · subst hc2
            have hth : t.head? ≠ some '\n' := by
              intro hth
              cases t with
              | nil => simp at hth
              | cons d ds =>
                simp only [List.head?_cons, Option.some.injEq] at hth
                subst hth
                have : "\n\n\n".data <+: '\n' :: '\n' :: '\n' :: ds := ⟨ds, rfl⟩
                exact containsSubB_false_iff.1 hn _ List.suffix_rfl this
            rw [collapseL_two t hth]
            rw [ih t (by simp at hs ⊢; omega)
              (containsSubB_tail (containsSubB_tail hn))]
          · rw [collapseL_copy (mCollapse_none ?_)]
            · rw [ih (c2 :: t) (by simp at hs ⊢; omega) (containsSubB_tail hn)]
            · intro u h
              injection h with _ h
              injection h with h _
              exact hc2 h
      · rw [collapseL_copy (mCollapse_none ?_)]
        · rw [ih cs (by simp at hs ⊢; omega) (containsSubB_tail hn)]
        · intro u h
          injection h with h _
          exact hc h

theorem noNNN_cons {c : Char} {X : List Char}
    (hpre : ¬ "\n\n\n".data <+: c :: X) (hX : containsSubB "\n\n\n".data X = false) :
    containsSubB "\n\n\n".data (c :: X) = false := by
  rw [containsSubB_cons]
  apply Bool.or_eq_false_iff.2
  constructor
  · cases hb : ("\n\n\n".data).isPrefixOf (c :: X)
    · rfl
    · exact absurd (isPrefixOf_true_iff.1 hb) hpre
  · exact hX

theorem collapseL_noNNN :
    ∀ (n : Nat) (s : List Char), s.length ≤ n →
      containsSubB "\n\n\n".data (collapseL s) = false := by
  intro n
  induction n with
  | zero =>
    intro s hs
    have : s = [] := List.length_eq_zero.1 (by omega)
    subst this
    rw [collapseL_nil]
    decide
  | succ a ih =>
    intro s hs
    cases s with
    | nil => rw [collapseL_nil]; decide
    | cons c cs =>
      by_cases hc : c = '\n'
      · subst hc
        cases cs with
        | nil =>
          rw [collapseL_copy (mCollapse_none (by intro t h; injection h with _ h; simp at h))]
          rw [collapseL_nil]
          decide
        | cons c2 t =>
          by_cases hc2 : c2 = '\n'
          · subst hc2
            unfold collapseL
            rw [reSubL_match mCollapse_prog (mCollapse_two t)]
            have hrest : containsSubB "\n\n\n".data
                (collapseL (t.dropWhile (· == '\n'))) = false := by
              apply ih
              have := (List.dropWhile_suffix (l := t) (· == '\n')).length_le
              simp at hs
              omega
            have hhd : ∀ d, (collapseL (t.dropWhile (· == '\n'))).head? = some d →
                d ≠ '\n' := by
              intro d hd hdn
              rw [collapseL_head] at hd
              have := head_dropWhile_false (· == '\n') t d hd
              rw [hdn] at this
              simp at this
            show containsSubB "\n\n\n".data
              ('\n' :: '\n' :: collapseL (t.dropWhile (· == '\n'))) = false
            apply noNNN_cons
            · intro hp
              obtain ⟨-, hp2⟩ := three_nl_pre hp
              exact hhd '\n' (two_nl_pre_cons hp2) rfl
            · apply noNNN_cons
              · intro hp
                obtain ⟨-, hp2⟩ := three_nl_pre hp
                exact hhd '\n' (two_nl_pre hp2) rfl
              · exact hrest
          · rw [collapseL_copy (mCollapse_none ?_)]
            · apply noNNN_cons
              · intro hp
                obtain ⟨-, hp2⟩ := three_nl_pre hp
                have := two_nl_pre hp2
                rw [collapseL_head] at this
                simp only [List.head?_cons, Option.some.injEq] at this
                exact hc2 this
              · exact ih (c2 :: t) (by simp at hs ⊢; omega)
            · intro u h
              injection h with _ h
              injection h with h _
              exact hc2 h
      · rw [collapseL_copy (mCollapse_none ?_)]
        · apply noNNN_cons
          · intro hp
            exact hc (three_nl_pre hp).1
          · exact ih cs (by simp at hs ⊢; omega)
        · intro u h
          injection h with h _
          exact hc h

theorem collapseL_idem (s : List Char) : collapseL (collapseL s) = collapseL s :=
  collapseL_of_noNNN (collapseL s).length (collapseL s) le_rfl
    (collapseL_noNNN s.length s le_rfl)

/-! ## The tag stripper on strings without tags or math delimiters -/

theorem cleanTextL_eq_collapse {s : List Char}
    (h1 : containsSubB "<|".data s = false)
    (h2 : containsSubB "\\(".data s = false)
    (h3 : containsSubB "\\[".data s = false) :
    cleanTextL s = collapseL s := by
  have e1 : (reSubL mRefBlock s).1 = s := by
    rw [reSubL_id_of_noSub mRefBlock_prog (fun t m hm => mRefBlock_pre hm) h1]
  have e2 : (reSubL mDetBlock s).1 = s := by
    rw [reSubL_id_of_noSub mDetBlock_prog (fun t m hm => mDetBlock_pre hm) h1]
  have e3 : (reSubL mBareTag s).1 = s := by
    rw [reSubL_id_of_noSub mBareTag_prog (fun t m hm => mBareTag_pre hm) h1]
  have e4 : (reSubL mLatexParen s).1 = s := by
    rw [reSubL_id_of_noSub mLatexParen_prog (fun t m hm => mLatexParen_pre hm) h2]
  have e5 : (reSubL mLatexBrack s).1 = s := by
    rw [reSubL_id_of_noSub mLatexBrack_prog (fun t m hm => mLatexBrack_pre hm) h3]
  show collapseL (reSubL mLatexBrack (reSubL mLatexParen (reSubL mBareTag
    (reSubL mDetBlock (reSubL mRefBlock s).1).1).1).1).1 = collapseL s
  rw [e1, e2, e3, e4, e5]

/-! ## Single-match computation on a standalone reference-detection pair -/

theorem dropWhile_false_head {p : Char → Bool} {c : Char} {Y X : List Char}
    (h : p c = false) : List.dropWhile p ((c :: Y) ++ X) = (c :: Y) ++ X := by
  rw [List.cons_append, List.dropWhile_cons, h]
  simp

theorem kDetClose_boundary : kDetClose ("]]".data ++ "<|/det|>".data) = some ((), []) := by
  decide

theorem kRefClose_boundary (X : List Char) :
    kRefClose ("<|/ref|>".data ++ X) = some ((), X) := by
  unfold kRefClose
  rw [dropLit_self]
  rfl

theorem kRefClose_none {t : List Char} (h : dropLit "<|/ref|>".data t = none) :
    kRefClose t = none := by
  simp [kRefClose, h]

theorem scanDet_boundary {c : List Char}
    (H2 : ∀ t ∈ (c ++ ("]]".data ++ "<|/det|>".data)).tails,
      ("]]".data ++ "<|/det|>".data).length < t.length → kDetClose t = none) :
    scanUntil kDetClose (c ++ ("]]".data ++ "<|/det|>".data)) = some (c, (), []) := by
  apply scanUntil_boundary kDetClose_boundary
  intro t ht hl
  exact H2 t ((List.mem_tails _ _).2 ht) hl

theorem kPairTail_boundary {c : List Char}
    (H2 : ∀ t ∈ (c ++ ("]]".data ++ "<|/det|>".data)).tails,
      ("]]".data ++ "<|/det|>".data).length < t.length → kDetClose t = none) :
    kPairTail ("<|/ref|>".data ++ detTail c) = some (c, []) := by
  have w1 : List.dropWhile pyIsSpace (detTail c) = detTail c := by
    unfold detTail
    exact dropWhile_false_head (by decide)
  have d2 : dropLit "<|det|>".data (detTail c) =
      some ("[[".data ++ (c ++ ("]]".data ++ "<|/det|>".data))) := by
    unfold detTail
    exact dropLit_self _ _
  have w2 : List.dropWhile pyIsSpace ("[[".data ++ (c ++ ("]]".data ++ "<|/det|>".data))) =
      "[[".data ++ (c ++ ("]]".data ++ "<|/det|>".data)) :=
    dropWhile_false_head (by decide)
  have d3 : dropLit "[[".data ("[[".data ++ (c ++ ("]]".data ++ "<|/det|>".data))) =
      some (c ++ ("]]".data ++ "<|/det|>".data)) :=
    dropLit_self _ _
  unfold kPairTail
  rw [dropLit_self "<|/ref|>".data (detTail c)]
  simp only [Option.some_bind]
  rw [w1, d2]
  simp only [Option.some_bind]
  rw [w2, d3]
  simp only [Option.some_bind]
  rw [scanDet_boundary H2]
  rfl

theorem mEmbed_refDetPair (enc : PILImage → Int × Int × Int × Int → List Char)
    (img : PILImage) {v c : List Char}
    (H1 : ∀ t ∈ (v ++ ("<|/ref|>".data ++ detTail c)).tails,
      ("<|/ref|>".data ++ detTail c).length < t.length →
        dropLit "<|/ref|>".data t = none)
    (H2 : ∀ t ∈ (c ++ ("]]".data ++ "<|/det|>".data)).tails,
      ("]]".data ++ "<|/det|>".data).length < t.length → kDetClose t = none) :
    mEmbed enc img (refDetPair v c) =
      some ⟨refDetPair v c, (replaceMatch enc img (refDetPair v c) v c).1, [],
        (replaceMatch enc img (refDetPair v c) v c).2⟩ := by
  have hd : dropLit "<|ref|>".data (refDetPair v c) =
      some (v ++ ("<|/ref|>".data ++ detTail c)) := by
    unfold refDetPair
    exact dropLit_self _ _
  have hs : scanUntil kPairTail (v ++ ("<|/ref|>".data ++ detTail c)) =
      some (v, c, []) := by
    apply scanUntil_boundary (kPairTail_boundary H2)
    intro t ht hl
    exact kPairTail_none (H1 t ((List.mem_tails _ _).2 ht) hl)
  unfold mEmbed
  rw [hd]
  simp only [Option.some_bind]
  rw [hs]
  simp only [Option.map_some', List.length_nil, Nat.sub_zero, List.take_length]

theorem mRefBlock_refDetPair {v c : List Char}
    (H1 : ∀ t ∈ (v ++ ("<|/ref|>".data ++ detTail c)).tails,
      ("<|/ref|>".data ++ detTail c).length < t.length →
        dropLit "<|/ref|>".data t = none) :
    ∃ m : SubM, mRefBlock (refDetPair v c) = some m ∧ m.repl = [] ∧ m.warn = 0 ∧
      m.rest = detTail c := by
  have hd : dropLit "<|ref|>".data (refDetPair v c) =
      some (v ++ ("<|/ref|>".data ++ detTail c)) := by
    unfold refDetPair
    exact dropLit_self _ _
  have hs : scanUntil kRefClose (v ++ ("<|/ref|>".data ++ detTail c)) =
      some (v, (), detTail c) := by
    apply scanUntil_boundary (kRefClose_boundary (detTail c))
    intro t ht hl
    exact kRefClose_none (H1 t ((List.mem_tails _ _).2 ht) hl)
  have hm : mRefBlock (refDetPair v c) =
      some ⟨(refDetPair v c).take ((refDetPair v c).length - (detTail c).length), [],
        detTail c, 0⟩ := by
    unfold mRefBlock
    rw [hd]
    simp only [Option.some_bind]
    rw [hs]
    rfl
  exact ⟨_, hm, rfl, rfl, rfl⟩

theorem mDetBlock_detTail {c : List Char}
    (H2 : ∀ t ∈ (c ++ ("]]".data ++ "<|/det|>".data)).tails,
      ("]]".data ++ "<|/det|>".data).length < t.length → kDetClose t = none) :
    ∃ m : SubM, mDetBlock (detTail c) = some m ∧ m.repl = [] ∧ m.warn = 0 ∧
      m.rest = [] := by
  have hd : dropLit "<|det|>".data (detTail c) =
      some ("[[".data ++ (c ++ ("]]".data ++ "<|/det|>".data))) := by
    unfold detTail
    exact dropLit_self _ _
  have w2 : List.dropWhile pyIsSpace ("[[".data ++ (c ++ ("]]".data ++ "<|/det|>".data))) =
      "[[".data ++ (c ++ ("]]".data ++ "<|/det|>".data)) :=
    dropWhile_false_head (by decide)
  have d3 : dropLit "[[".data ("[[".data ++ (c ++ ("]]".data ++ "<|/det|>".data))) =
      some (c ++ ("]]".data ++ "<|/det|>".data)) :=
    dropLit_self _ _
  have hm : mDetBlock (detTail c) = some ⟨detTail c, [], [], 0⟩ := by
    unfold mDetBlock
    rw [hd]
    simp only [Option.some_bind]
    rw [w2, d3]
    simp only [Option.some_bind]
    rw [scanDet_boundary H2]
    simp only [Option.map_some', List.length_nil, Nat.sub_zero, List.take_length]
  exact ⟨_, hm, rfl, rfl, rfl⟩

theorem mRefBlock_pre_full {s : List Char} {m : SubM} (h : mRefBlock s = some m) :
    "<|ref|>".data <+: s := by
  simp only [mRefBlock, Option.bind_eq_some, Option.map_eq_some'] at h
  obtain ⟨s1, hd, -⟩ := h
  exact dropLit_pre hd

theorem replaceMatch_nonimage (enc : PILImage → Int × Int × Int × Int → List Char)
    (img : PILImage) (g0 g1 g2 : List Char) (h : pyStrip g1 ≠ "image".data) :
    replaceMatch enc img g0 g1 g2 = (g0, 0) := by
  simp [replaceMatch, h]

-- sanity checks (model evaluation on concrete inputs)
example : Int.tdiv (-999) 1000 = 0 := by decide
example : pyParseCoords "1, 2,3 ,4".data = some [1, 2, 3, 4] := by decide
example : pyParseCoords "1,2,3".data = some [1, 2, 3] := by decide
example : pyParseCoords "1,a,3,4".data = none := by decide
example : cleanTextL "a\n\n\n\nb".data = "a\n\nb".data := by decide
example : cleanTextL "<|ref|>table<|/ref|><|det|>[[1,2,3,4]]<|/det|>".data = [] := by decide
example : cleanTextL "\\(x+1\\)".data = "$x+1$".data := by decide
example : cleanTextL "\\[x=1\\]".data = "$$x=1$$".data := by decide
example :
    (extractAndEmbedL encStub ⟨1000, 1000⟩
      "<|ref|>image<|/ref|><|det|>[[250,250,750,750]]<|/det|>".data).1 =
    mdImage [] := by decide
example :
    (extractAndEmbedL encStub ⟨1000, 1000⟩
      "<|ref|>image<|/ref|><|det|>[[1,2,3]]<|/det|>".data) =
    ("<|ref|>image<|/ref|><|det|>[[1,2,3]]<|/det|>".data, 0) := by decide
example :
    (extractAndEmbedL encStub ⟨1000, 1000⟩
      "<|ref|>table<|/ref|><|det|>[[1,2,3,4]]<|/det|>".data) =
    ("<|ref|>table<|/ref|><|det|>[[1,2,3,4]]<|/det|>".data, 0) := by decide
example : assembleL "x.pdf".data [(1, "a".data)] =
    "<!-- Generated by converter.py from x.pdf -->\n\na\n\n".data := by decide
example : countOccur "<!-- Page ".data
    (assembleL "x.pdf".data [(1, "a".data), (2, "b".data), (3, "c".data)]) = 3 := by
  decide

/-! ## Claims -/

/-- Claim C1 (counterexample): the Region Resolver does not compute
`round(normalized / 1000 * dimension)` and does not clamp.  At normalized
coordinate 1 on a width-999 image the code computes `int(1/1000*999) =
int(0.999) = 0` while rounding gives 1; and for the pair with coordinates
`[[-100,0,500,1000]]` on a 1000×1000 image the code passes the box
`(-100, 0, 500, 1000)` to `crop` unchanged, while the claimed clamped
rounding puts the first coordinate at 0. -/
theorem claim_C1_counterexample :
    (codePixel 1 999 = 0 ∧ specPixel 1 999 = 1) ∧
    resolvedBox (-100) 0 500 1000 1000 1000 = (-100, 0, 500, 1000) ∧
    specPixel (-100) 1000 = 0 := by
  decide

/-- Claim C1 (amended): each pixel coordinate is computed as truncation
toward zero of `normalized * dimension / 1000` (Python `int()`),
independently per axis, and no clamping is performed; for normalized
coordinates within `[0, 1000]` the truncated result nevertheless always
lies within `[0, dimension]`. -/
theorem claim_C1_amended (n : Int) (d : Nat) (h0 : 0 ≤ n) (h1 : n ≤ 1000) :
    0 ≤ codePixel n d ∧ codePixel n d ≤ d := by
  unfold codePixel
  have hd0 : (0 : Int) ≤ (d : Int) := Int.ofNat_nonneg d
  have hnd : 0 ≤ n * d := mul_nonneg h0 hd0
  constructor
  · exact Int.tdiv_nonneg hnd (by omega)
  · rw [Int.tdiv_eq_ediv hnd (by omega)]
    have hle : n * d ≤ 1000 * d := mul_le_mul_of_nonneg_right h1 hd0
    have hld : (1000 : Int) * d = d * 1000 := by ring
    rw [hld] at hle
    generalize hk : n * d = k at hnd hle ⊢
    omega

/-- Claim C1 witness: the amended bounds at the concrete input
`n = 250`, `d = 1000`. -/
theorem claim_C1_witness :
    0 ≤ codePixel 250 1000 ∧ codePixel 250 1000 ≤ 1000 :=
  claim_C1_amended 250 1000 (by decide) (by decide)

/-- Claim C3 (counterexample): on the spec's own example, the malformed
three-integer coordinate list `[[1,2,3]]` is passed through verbatim but
the warning count is 0 — no diagnostic is recorded, contradicting the
claim's "records a diagnostic" (the `len(coords) != 4` branch returns
silently; only the `except` handler writes a warning). -/
theorem claim_C3_counterexample :
    extractAndEmbedL encStub ⟨1000, 1000⟩
        "<|ref|>image<|/ref|><|det|>[[1,2,3]]<|/det|>".data =
      ("<|ref|>image<|/ref|><|det|>[[1,2,3]]<|/det|>".data, 0) := by
  decide

/-- Claim C3 (amended): for an `image` pair whose coordinate list does not
parse to exactly four integers the original tag text is left untouched and
no error aborts the rest of the text; a diagnostic is recorded only when
the integer parse itself raises (`none`), not when the count differs from
four.  The last conjunct shows processing continuing past a malformed pair
to embed a later well-formed one. -/
theorem claim_C3_amended (enc : PILImage → Int × Int × Int × Int → List Char)
    (img : PILImage) (g0 g1 g2 : List Char) (hg : pyStrip g1 = "image".data) :
    (pyParseCoords (pyStrip g2) = none → replaceMatch enc img g0 g1 g2 = (g0, 1)) ∧
    (∀ l, pyParseCoords (pyStrip g2) = some l → l.length ≠ 4 →
      replaceMatch enc img g0 g1 g2 = (g0, 0)) ∧
    (extractAndEmbedL encStub ⟨1000, 1000⟩
        ("<|ref|>image<|/ref|><|det|>[[1,2,3]]<|/det|>X<|ref|>image<|/ref|><|det|>[[0,0,1000,1000]]<|/det|>".data)).1 =
      "<|ref|>image<|/ref|><|det|>[[1,2,3]]<|/det|>X".data ++ mdImage [] := by
    refine ⟨?_, ?_, by decide⟩
    · intro hp
      simp [replaceMatch, hg, hp]
    · intro l hp hl
      rcases l with - | ⟨a, - | ⟨b, - | ⟨c3, - | ⟨d4, - | ⟨e5, rest⟩⟩⟩⟩⟩
      · simp [replaceMatch, hg, hp]
      · simp [replaceMatch, hg, hp]
      · simp [replaceMatch, hg, hp]
      · simp [replaceMatch, hg, hp]
      · exact absurd (by simp : ([a, b, c3, d4] : List Int).length = 4) hl
      · simp [replaceMatch, hg, hp]

/-- Claim C3 witness: the amended statement at the concrete groups of the
pair `<|ref|>image<|/ref|><|det|>[[1,2,3]]<|/det|>`. -/
theorem claim_C3_witness :
    (pyParseCoords (pyStrip "1,2,3".data) = none →
      replaceMatch encStub ⟨1000, 1000⟩ "orig".data "image".data "1,2,3".data =
        ("orig".data, 1)) ∧
    (∀ l, pyParseCoords (pyStrip "1,2,3".data) = some l → l.length ≠ 4 →
      replaceMatch encStub ⟨1000, 1000⟩ "orig".data "image".data "1,2,3".data =
        ("orig".data, 0)) ∧
    (extractAndEmbedL encStub ⟨1000, 1000⟩
        ("<|ref|>image<|/ref|><|det|>[[1,2,3]]<|/det|>X<|ref|>image<|/ref|><|det|>[[0,0,1000,1000]]<|/det|>".data)).1 =
      "<|ref|>image<|/ref|><|det|>[[1,2,3]]<|/det|>X".data ++ mdImage [] :=
  claim_C3_amended encStub ⟨1000, 1000⟩ "orig".data "image".data "1,2,3".data (by decide)

/-- Claim C4: on a 1000×1000 image the pair `[[250,250,750,750]]`
resolves to the crop box `(250,250,750,750)` and is embedded as inline
image markup carrying exactly that crop; and for coordinates
`[[0,0,1000,1000]]` the resolved box is the full image `(0,0,w,h)` for
every width `w` and height `h`. -/
theorem claim_C4 :
    (∀ w h : Nat, resolvedBox 0 0 1000 1000 w h = (0, 0, (w : Int), (h : Int))) ∧
    resolvedBox 250 250 750 750 1000 1000 = (250, 250, 750, 750) ∧
    ∀ enc : PILImage → Int × Int × Int × Int → List Char,
      extractAndEmbedL enc ⟨1000, 1000⟩
          "<|ref|>image<|/ref|><|det|>[[250,250,750,750]]<|/det|>".data =
        (mdImage (enc ⟨1000, 1000⟩ (250, 250, 750, 750)), 0) := by
  refine ⟨?_, by decide, ?_⟩
  · intro w h
    unfold resolvedBox codePixel
    refine Prod.ext ?_ (Prod.ext ?_ (Prod.ext ?_ ?_)) <;> simp
  · intro enc
    have hm : mEmbed enc ⟨1000, 1000⟩
        "<|ref|>image<|/ref|><|det|>[[250,250,750,750]]<|/det|>".data =
      some ⟨"<|ref|>image<|/ref|><|det|>[[250,250,750,750]]<|/det|>".data,
        mdImage (enc ⟨1000, 1000⟩ (250, 250, 750, 750)), [], 0⟩ := rfl
    unfold extractAndEmbedL
    rw [reSubL_match (mEmbed_prog enc _) hm, reSubL_nil rfl]
    simp

/-- Claim C5 (counterexample): for the pair `[[-100,0,-50,1000]]` on a
1000×1000 image the box clamped into the image bounds has zero area (both
x coordinates clamp to 0), yet the embedder does not skip: the code crops
the unclamped box `(-100,0,-50,1000)` — which PIL accepts, padding the
out-of-bounds region — and emits image markup for the pair. -/
theorem claim_C5_counterexample :
    (max 0 (min ((resolvedBox (-100) 0 (-50) 1000 1000 1000).1) 1000) =
        max 0 (min ((resolvedBox (-100) 0 (-50) 1000 1000 1000).2.2.1) 1000)) ∧
    resolvedBox (-100) 0 (-50) 1000 1000 1000 = (-100, 0, -50, 1000) ∧
    (extractAndEmbedL encStub ⟨1000, 1000⟩
        "<|ref|>image<|/ref|><|det|>[[-100,0,-50,1000]]<|/det|>".data).1 =
      mdImage [] := by
  decide

/-- Claim C5 (amended): for an `image` pair whose raw pixel box (no
clamping is performed by the code) satisfies `x2 ≤ x1` or `y2 ≤ y1`, the
embedder leaves the original tag text in place with one recorded warning
and emits no image markup: a strictly negative extent makes `crop` raise
and a zero extent makes the PNG save raise, both caught locally. -/
theorem claim_C5_amended (enc : PILImage → Int × Int × Int × Int → List Char)
    (img : PILImage) (g0 g1 g2 : List Char) (x1 y1 x2 y2 : Int)
    (hg : pyStrip g1 = "image".data)
    (hp : pyParseCoords (pyStrip g2) = some [x1, y1, x2, y2])
    (hz : (resolvedBox x1 y1 x2 y2 img.width img.height).2.2.1 ≤
        (resolvedBox x1 y1 x2 y2 img.width img.height).1 ∨
      (resolvedBox x1 y1 x2 y2 img.width img.height).2.2.2 ≤
        (resolvedBox x1 y1 x2 y2 img.width img.height).2.1) :
    replaceMatch enc img g0 g1 g2 = (g0, 1) := by
  by_cases hc : (resolvedBox x1 y1 x2 y2 img.width img.height).2.2.1 <
      (resolvedBox x1 y1 x2 y2 img.width img.height).1 ∨
    (resolvedBox x1 y1 x2 y2 img.width img.height).2.2.2 <
      (resolvedBox x1 y1 x2 y2 img.width img.height).2.1
  · simp [replaceMatch, hg, hp, hc]
  · push_neg at hc
    have hc2 : (resolvedBox x1 y1 x2 y2 img.width img.height).2.2.1 =
        (resolvedBox x1 y1 x2 y2 img.width img.height).1 ∨
      (resolvedBox x1 y1 x2 y2 img.width img.height).2.2.2 =
        (resolvedBox x1 y1 x2 y2 img.width img.height).2.1 := by
      rcases hz with hz | hz
      · exact Or.inl (le_antisymm hz hc.1)
      · exact Or.inr (le_antisymm hz hc.2)
    have hc1 : ¬ ((resolvedBox x1 y1 x2 y2 img.width img.height).2.2.1 <
        (resolvedBox x1 y1 x2 y2 img.width img.height).1 ∨
      (resolvedBox x1 y1 x2 y2 img.width img.height).2.2.2 <
        (resolvedBox x1 y1 x2 y2 img.width img.height).2.1) := by
      push_neg
      exact hc
    simp [replaceMatch, hg, hp, hc1, hc2]

/-- Claim C5 witness: the amended statement at the degenerate pair
`[[500,100,500,900]]` (zero horizontal extent) on a 1000×1000 image. -/
theorem claim_C5_witness :
    replaceMatch encStub ⟨1000, 1000⟩
      "<|ref|>image<|/ref|><|det|>[[500,100,500,900]]<|/det|>".data
      "image".data "500,100,500,900".data =
    ("<|ref|>image<|/ref|><|det|>[[500,100,500,900]]<|/det|>".data, 1) :=
  claim_C5_amended encStub ⟨1000, 1000⟩ _ "image".data "500,100,500,900".data
    500 100 500 900 (by decide) (by decide) (by decide)

/-- Claim C2: for every reference-detection pair whose reference value
(whitespace-stripped, as the code compares it) is not the literal token
`image`, the embedder leaves the pair in the text verbatim — no crop, no
warning — and the subsequent tag stripper removes the pair entirely,
discarding its content.  Hypotheses H1 and H2 state that `v` and `c` are
exactly the pattern's captured groups (no earlier closing delimiter occurs
before the displayed one); H3 states that the detection block does not
itself open a new reference pattern. -/
theorem claim_C2 (enc : PILImage → Int × Int × Int × Int → List Char)
    (img : PILImage) (v c : List Char)
    (hg : pyStrip v ≠ "image".data)
    (H1 : ∀ t ∈ (v ++ ("<|/ref|>".data ++ detTail c)).tails,
      ("<|/ref|>".data ++ detTail c).length < t.length →
        dropLit "<|/ref|>".data t = none)
    (H2 : ∀ t ∈ (c ++ ("]]".data ++ "<|/det|>".data)).tails,
      ("]]".data ++ "<|/det|>".data).length < t.length → kDetClose t = none)
    (H3 : containsSubB "<|ref|>".data (detTail c) = false) :
    extractAndEmbedL enc img (refDetPair v c) = (refDetPair v c, 0) ∧
    cleanTextL (refDetPair v c) = [] := by
  constructor
  · have b0 : reSubL (mEmbed enc img) ([] : List Char) = ([], 0) := reSubL_nil rfl
    have hrm : replaceMatch enc img (refDetPair v c) v c = (refDetPair v c, 0) :=
      replaceMatch_nonimage enc img _ _ _ hg
    unfold extractAndEmbedL
    rw [reSubL_match (mEmbed_prog enc img) (mEmbed_refDetPair enc img H1 H2)]
    simp [b0, hrm]
  · obtain ⟨m1, hm1, hr1, -, hrest1⟩ := mRefBlock_refDetPair H1
    obtain ⟨m2, hm2, hr2, -, hrest2⟩ := mDetBlock_detTail H2
    have s1 : (reSubL mRefBlock (refDetPair v c)).1 = detTail c := by
      rw [reSubL_match mRefBlock_prog hm1, hr1, hrest1,
        reSubL_id_of_noSub mRefBlock_prog (fun t m hm => mRefBlock_pre_full hm) H3]
      simp
    have s2 : (reSubL mDetBlock (detTail c)).1 = [] := by
      rw [reSubL_match mDetBlock_prog hm2, hr2, hrest2, reSubL_nil rfl]
      simp
    have b3 : reSubL mBareTag ([] : List Char) = ([], 0) := reSubL_nil rfl
    have b4 : reSubL mLatexParen ([] : List Char) = ([], 0) := reSubL_nil rfl
    have b5 : reSubL mLatexBrack ([] : List Char) = ([], 0) := reSubL_nil rfl
    show collapseL (reSubL mLatexBrack (reSubL mLatexParen (reSubL mBareTag
      (reSubL mDetBlock (reSubL mRefBlock (refDetPair v c)).1).1).1).1).1 = []
    rw [s1]
    simp [s2, b3, b4, b5, collapseL_nil]

/-- Claim C2 witness: the spec's example pair
`<|ref|>table<|/ref|><|det|>[[1,2,3,4]]<|/det|>`. -/
theorem claim_C2_witness :
    extractAndEmbedL encStub ⟨1000, 1000⟩ (refDetPair "table".data "1,2,3,4".data) =
      (refDetPair "table".data "1,2,3,4".data, 0) ∧
    cleanTextL (refDetPair "table".data "1,2,3,4".data) = [] :=
  claim_C2 encStub ⟨1000, 1000⟩ "table".data "1,2,3,4".data (by decide) (by decide)
    (by decide) (by decide)

/-- Claim C6 (counterexample): `\(x\)` contains no tag of the tag
grammar (no `<|` occurs), has no blank lines (it is its own blank-line
collapse), yet the stripper/normalizer rewrites it to `$x$`: the identity
claim fails because `clean_text` also rewrites LaTeX math delimiters. -/
theorem claim_C6_counterexample :
    containsSubB "<|".data "\\(x\\)".data = false ∧
    collapseL "\\(x\\)".data = "\\(x\\)".data ∧
    cleanTextL "\\(x\\)".data = "$x$".data ∧
    cleanTextL "\\(x\\)".data ≠ collapseL "\\(x\\)".data := by
  decide

/-- Claim C6 (amended): for any text containing no tag opening `<|` and no
LaTeX delimiter opening `\(` or `\[`, the stripper/normalizer is exactly
the blank-line collapse (runs of two or more newlines become exactly two)
and changes nothing else. -/
theorem claim_C6_amended {s : List Char}
    (h1 : containsSubB "<|".data s = false)
    (h2 : containsSubB "\\(".data s = false)
    (h3 : containsSubB "\\[".data s = false) :
    cleanTextL s = collapseL s :=
  cleanTextL_eq_collapse h1 h2 h3

/-- Claim C6 witness: the amended identity on `a\n\n\n\nb`, whose collapse
is `a\n\nb`. -/
theorem claim_C6_witness :
    cleanTextL "a\n\n\n\nb".data = collapseL "a\n\n\n\nb".data ∧
    collapseL "a\n\n\n\nb".data = "a\n\nb".data :=
  ⟨claim_C6_amended (by decide) (by decide) (by decide), by decide⟩

/-- Claim C7 (counterexample): the cleaner is not idempotent.  On
`\(\(x\)y\)` one application yields `$\(x$y\)` — the math rewrite
re-exposes a `\( … \)` span — and a second application rewrites again,
yielding `$$x$y$`. -/
theorem claim_C7_counterexample :
    cleanTextL "\\(\\(x\\)y\\)".data = "$\\(x$y\\)".data ∧
    cleanTextL (cleanTextL "\\(\\(x\\)y\\)".data) = "$$x$y$".data ∧
    cleanTextL (cleanTextL "\\(\\(x\\)y\\)".data) ≠
      cleanTextL "\\(\\(x\\)y\\)".data := by
  decide

/-- Claim C7 (amended): the cleaner is idempotent on every input whose
cleaned output is free of the tag opening `<|` and the LaTeX delimiter
openings `\(` and `\[`: on such outputs the five tag/math rewrites are
the identity and the final blank-line collapse is idempotent.  In general
a second application can change the text further (counterexample above). -/
theorem claim_C7_amended {s : List Char}
    (h1 : containsSubB "<|".data (cleanTextL s) = false)
    (h2 : containsSubB "\\(".data (cleanTextL s) = false)
    (h3 : containsSubB "\\[".data (cleanTextL s) = false) :
    cleanTextL (cleanTextL s) = cleanTextL s := by
  rw [cleanTextL_eq_collapse h1 h2 h3]
  exact collapseL_idem _

/-- Claim C7 witness: idempotence on `<|ref|>a<|/ref|> b`, whose cleaned
output ` b` is free of tags and math delimiters. -/
theorem claim_C7_witness :
    cleanTextL (cleanTextL "<|ref|>a<|/ref|> b".data) =
      cleanTextL "<|ref|>a<|/ref|> b".data :=
  claim_C7_amended (by decide) (by decide) (by decide)

/-- Claim C8 (counterexample): assembling three PageResults with indices
1, 2, 3 yields three `<!-- Page N -->` markers — one per page — not
exactly two as claimed. -/
theorem claim_C8_counterexample :
    ¬ countOccur "<!-- Page ".data
        (assembleL "doc.pdf".data [(1, "a".data), (2, "b".data), (3, "c".data)]) = 2 := by
  decide

/-- Claim C8 (amended): assembling three PageResults with indices 1, 2, 3
(the order the sequential pipeline produces them in) yields the header
followed by three `<!-- Page N -->` markers in ascending order, one
preceding each page's text, each page followed by a blank line; on
marker-free page texts the marker count is exactly three. -/
theorem claim_C8_amended (name t1 t2 t3 : List Char) :
    assembleL name [(1, t1), (2, t2), (3, t3)] =
      headerL name ++ (pageMarkerL 1 ++ (t1 ++ ("\n\n".data ++
        (pageMarkerL 2 ++ (t2 ++ ("\n\n".data ++
          (pageMarkerL 3 ++ (t3 ++ "\n\n".data)))))))) ∧
    countOccur "<!-- Page ".data
      (assembleL "doc.pdf".data [(1, "a".data), (2, "b".data), (3, "c".data)]) = 3 := by
  constructor
  · unfold assembleL
    simp [List.append_assoc]
  · decide

/-- Claim C9: the assembled document carries a `Page N` marker before each
page's content exactly when there is more than one page: in a multi-page
document each page's block — its marker, its text, a blank line — occurs
in the document; a single-page document is exactly the header, the page
text and a final blank line, with no page marker (checked on a concrete
instance in the last conjunct). -/
theorem claim_C9 (name : List Char) (results : List (Nat × List Char)) (t : List Char) :
    (1 < results.length → ∀ p ∈ results,
      (pageMarkerL p.1 ++ p.2 ++ "\n\n".data) <:+: assembleL name results) ∧
    assembleL name [(1, t)] = headerL name ++ t ++ "\n\n".data ∧
    countOccur "<!-- Page ".data (assembleL "a.png".data [(1, "hi".data)]) = 0 := by
  refine ⟨?_, ?_, by decide⟩
  · intro hlen p hp
    unfold assembleL
    have hmem : (if 1 < results.length then pageMarkerL p.1 else []) ++ p.2 ++
        "\n\n".data ∈ results.map (fun q =>
          (if 1 < results.length then pageMarkerL q.1 else []) ++ q.2 ++ "\n\n".data) :=
      List.mem_map_of_mem _ hp
    rw [if_pos hlen] at hmem
    exact (List.infix_of_mem_flatten hmem).trans (List.suffix_append _ _).isInfix
  · unfold assembleL
    simp [List.append_assoc]

/-- Claim C9 witness: the multi-page conjunct at a concrete two-page
document and its second page. -/
theorem claim_C9_witness :
    (pageMarkerL 2 ++ "b".data ++ "\n\n".data) <:+:
      assembleL "doc.pdf".data [(1, "a".data), (2, "b".data)] :=
  (claim_C9 "doc.pdf".data [(1, "a".data), (2, "b".data)] "a".data).1 (by decide)
    (2, "b".data) (by decide)

/-- Claim C10: the embedder only rewrites inside matched
reference-detection spans.  The input decomposes into segments whose
concatenation is the input and whose rewrittén concatenation is the
output, each segment either copied verbatim (unmatched characters, and
matched spans passed through on failure) or replaced by a single inline
markdown image; and on text where the pair pattern matches nowhere the
embedder is the identity and warns nothing. -/
theorem claim_C10 (enc : PILImage → Int × Int × Int × Int → List Char)
    (img : PILImage) (s : List Char) :
    (∃ segs : List (List Char × List Char),
      (segs.map Prod.fst).flatten = s ∧
      (segs.map Prod.snd).flatten = (extractAndEmbedL enc img s).1 ∧
      ∀ q ∈ segs, q.2 = q.1 ∨ ∃ b, q.2 = mdImage (enc img b)) ∧
    ((∀ t ∈ s.tails, mEmbed enc img t = none) →
      extractAndEmbedL enc img s = (s, 0)) := by
  unfold extractAndEmbedL
  constructor
  · obtain ⟨segs, h1, h2, h3⟩ := reSubL_decomp (mEmbed_prog enc img)
      (fun t m hm => (mEmbed_spec hm).2.2) s.length s le_rfl
    refine ⟨segs, h1, h2, ?_⟩
    intro q hq
    rcases h3 q hq with hq2 | ⟨t, m, hm, hq1, hq2⟩
    · exact Or.inl hq2
    · rcases mEmbed_repl hm with hr | ⟨b, hr⟩
      · exact Or.inl (by rw [hq2, hr, hq1])
      · exact Or.inr ⟨b, by rw [hq2, hr]⟩
  · intro h
    apply reSubL_no_match (mEmbed_prog enc img)
    intro t ht
    exact h t ((List.mem_tails _ _).2 ht)

/-- Claim C10 witness: the no-match identity on a concrete pair-free
text. -/
theorem claim_C10_witness :
    extractAndEmbedL encStub ⟨8, 8⟩ "no tags here".data = ("no tags here".data, 0) :=
  (claim_C10 encStub ⟨8, 8⟩ "no tags here".data).2 (by decide)

end DeepseekOCR
